import Mathlib

/-!
# Merkle-tree pipeline: shallow embedding and verification

Embedding of the content-hashing / Merkle-tree-construction core of
`merkle_tree/main.go`, together with theorems settling the specification
claims about it.

Conventions of the embedding:
* a Go `[]byte` is a `List Nat` whose entries are bytes (`< 256`);
* `crypto/sha256` is embedded as a full executable SHA-256 (`sha256`) over
  byte lists, big-endian, exactly as in FIPS 180-4 — all digest equalities
  and inequalities proved below are therefore about the real hash values;
* Go machine integers that matter here (sizes, lengths) are `Nat` — no
  overflow is reachable at the sizes involved;
* nullable pointers (`*MerkleNode`) and nilable slices (`data []byte`)
  become `Option`;
* fallible functions returning `(T, error)` become `Except String T`,
  carrying the exact Go error strings;
* `time.Now()` becomes an explicit `now : Nat` parameter, so that
  timestamp-independence is expressible.
-/

set_option maxRecDepth 100000

/-! ## SHA-256 (embedding of `crypto/sha256` as used by `main.go`) -/

/-- Truncate to a 32-bit word. -/
def w32 (n : Nat) : Nat := n % 4294967296

/-- Right-rotation of a 32-bit word. -/
def rotr (n x : Nat) : Nat := w32 ((x >>> n) ||| (x <<< (32 - n)))

/-- SHA-256 `Ch` function. -/
def shaCh (e f g : Nat) : Nat := (e &&& f) ^^^ ((e ^^^ 4294967295) &&& g)

/-- SHA-256 `Maj` function. -/
def shaMaj (a b c : Nat) : Nat := (a &&& b) ^^^ (a &&& c) ^^^ (b &&& c)

/-- SHA-256 Σ₀. -/
def bigSigma0 (x : Nat) : Nat := rotr 2 x ^^^ rotr 13 x ^^^ rotr 22 x

/-- SHA-256 Σ₁. -/
def bigSigma1 (x : Nat) : Nat := rotr 6 x ^^^ rotr 11 x ^^^ rotr 25 x

/-- SHA-256 σ₀. -/
def smallSigma0 (x : Nat) : Nat := rotr 7 x ^^^ rotr 18 x ^^^ (x >>> 3)

/-- SHA-256 σ₁. -/
def smallSigma1 (x : Nat) : Nat := rotr 17 x ^^^ rotr 19 x ^^^ (x >>> 10)

/-- SHA-256 initial hash state (the FIPS 180-4 values `H0..H7`, in decimal). -/
def initH : List Nat :=
  [1779033703, 3144134277, 1013904242, 2773480762,
   1359893119, 2600822924, 528734635, 1541459225]

/-- SHA-256 round constants (the FIPS 180-4 values `K0..K63`, in decimal). -/
def Kconst : List Nat :=
  [1116352408, 1899447441, 3049323471, 3921009573, 961987163, 1508970993,
   2453635748, 2870763221, 3624381080, 310598401, 607225278, 1426881987,
   1925078388, 2162078206, 2614888103, 3248222580, 3835390401, 4022224774,
   264347078, 604807628, 770255983, 1249150122, 1555081692, 1996064986,
   2554220882, 2821834349, 2952996808, 3210313671, 3336571891, 3584528711,
   113926993, 338241895, 666307205, 773529912, 1294757372, 1396182291,
   1695183700, 1986661051, 2177026350, 2456956037, 2730485921, 2820302411,
   3259730800, 3345764771, 3516065817, 3600352804, 4094571909, 275423344,
   430227734, 506948616, 659060556, 883997877, 958139571, 1322822218,
   1537002063, 1747873779, 1955562222, 2024104815, 2227730452, 2361852424,
   2428436474, 2756734187, 3204031479, 3329325298]

/-- Big-endian decoding of bytes into 32-bit words (groups of 4). -/
def bytesToWords : List Nat → List Nat
  | b0 :: b1 :: b2 :: b3 :: rest =>
    (b0 * 16777216 + b1 * 65536 + b2 * 256 + b3) :: bytesToWords rest
  | _ => []

/-- Append the next message-schedule word `W[n] = σ₁ W[n-2] + W[n-7] + σ₀ W[n-15] + W[n-16]`. -/
def schedStep (w : List Nat) : List Nat :=
  let n := w.length
  w ++ [w32 (smallSigma1 (w.getD (n - 2) 0) + w.getD (n - 7) 0 +
             smallSigma0 (w.getD (n - 15) 0) + w.getD (n - 16) 0)]

/-- Iterate `schedStep` a given number of times (48 extends 16 words to 64). -/
def buildSchedule : Nat → List Nat → List Nat
  | 0, w => w
  | k + 1, w => buildSchedule k (schedStep w)

/-- One SHA-256 compression round on the state `[a,b,c,d,e,f,g,h]`. -/
def shaRound (kw : Nat × Nat) (st : List Nat) : List Nat :=
  match st with
  | [a, b, c, d, e, f, g, h] =>
    let t1 := w32 (h + bigSigma1 e + shaCh e f g + kw.1 + kw.2)
    let t2 := w32 (bigSigma0 a + shaMaj a b c)
    [w32 (t1 + t2), a, b, c, w32 (d + t1), e, f, g]
  | _ => st

/-- Compress one 64-byte block into the hash state. -/
def compressBlock (H : List Nat) (block : List Nat) : List Nat :=
  let W := buildSchedule 48 (bytesToWords block)
  let st := (List.zip Kconst W).foldl (fun s kw => shaRound kw s) H
  List.zipWith (fun x y => w32 (x + y)) H st

/-- Split a list into chunks of `sz` bytes (structurally, via an accumulator). -/
def chunkAux (sz : Nat) : List Nat → List Nat → List (List Nat)
  | acc, [] => if acc.isEmpty then [] else [acc]
  | acc, b :: rest =>
    if acc.length + 1 = sz then (acc ++ [b]) :: chunkAux sz [] rest
    else chunkAux sz (acc ++ [b]) rest

/-- Concatenation of a list of lists (in order). -/
def concatAll {α : Type} : List (List α) → List α
  | [] => []
  | c :: cs => c ++ concatAll cs

/-- The 8-byte big-endian encoding of a (bit-)length. -/
def lengthBytes (n : Nat) : List Nat :=
  [(n >>> 56) &&& 255, (n >>> 48) &&& 255, (n >>> 40) &&& 255, (n >>> 32) &&& 255,
   (n >>> 24) &&& 255, (n >>> 16) &&& 255, (n >>> 8) &&& 255, n &&& 255]

/-- SHA-256 padding: `0x80`, zeros to 56 mod 64, then the 64-bit bit length. -/
def padMessage (msg : List Nat) : List Nat :=
  let L := msg.length
  msg ++ [128] ++ List.replicate ((55 + 64 - L % 64) % 64) 0 ++ lengthBytes (8 * L)

/-- Big-endian bytes of a 32-bit word. -/
def wordBytes (w : Nat) : List Nat :=
  [(w >>> 24) &&& 255, (w >>> 16) &&& 255, (w >>> 8) &&& 255, w &&& 255]

/-- SHA-256 of a byte list: pad, compress each 64-byte block, serialize the state. -/
def sha256 (msg : List Nat) : List Nat :=
  concatAll (((chunkAux 64 [] (padMessage msg)).foldl compressBlock initH).map wordBytes)

/-! ## The Merkle tree data model (`MerkleNode`, `MerkleTree`, lines 19–30) -/

/-- `MerkleNode` (main.go:19–23): optional left/right child pointers and a hash. -/
inductive MerkleNode where
  | mk (left : Option MerkleNode) (right : Option MerkleNode) (hash : List Nat)

/-- The `Left` field. -/
def MerkleNode.left : MerkleNode → Option MerkleNode
  | .mk l _ _ => l

/-- The `Right` field. -/
def MerkleNode.right : MerkleNode → Option MerkleNode
  | .mk _ r _ => r

/-- The `Hash` field. -/
def MerkleNode.hash : MerkleNode → List Nat
  | .mk _ _ h => h

/-- The bytes `NewMerkleNode` feeds to `sha256.New()` (main.go:106–117): left's
hash if present, then right's hash if present, then the data if present. -/
def nodeInput (left right : Option MerkleNode) (data : Option (List Nat)) : List Nat :=
  (match left with | some l => l.hash | none => []) ++
  (match right with | some r => r.hash | none => []) ++
  (match data with | some d => d | none => [])

/-- `NewMerkleNode` (main.go:106–120): hash the children's hashes and the data,
in that order, and store the children pointers unchanged. -/
def NewMerkleNode (left right : Option MerkleNode) (data : Option (List Nat)) : MerkleNode :=
  .mk left right (sha256 (nodeInput left right data))

/-- A leaf node as `buildMerkleTree` makes one: `NewMerkleNode(nil, nil, d)`. -/
def leaf (d : List Nat) : MerkleNode := NewMerkleNode none none (some d)

/-- A hex digit character (lowercase), as `encoding/hex` produces. -/
def hexDigit (n : Nat) : Char := if n < 10 then Char.ofNat (48 + n) else Char.ofNat (87 + n)

/-- Lowercase hex encoding of a byte list (`hex.EncodeToString`). -/
def hexEncode (bytes : List Nat) : List Char :=
  concatAll (bytes.map fun b => [hexDigit (b / 16), hexDigit (b % 16)])

/-- `MerkleTree` (main.go:25–30). In `buildMerkleTree`'s result the root pointer
is never nil, so the root is stored directly; the nil-tree case is the `none`
of the surrounding `Option`. `CreatedAt` (`time.Now()`) is the explicit `now`. -/
structure MerkleTree where
  root : MerkleNode
  createdAt : Nat
  fileCount : Nat
  rootHash : List Char

/-! ## The Merkle tree builder (`buildMerkleTree`, lines 122–161) -/

/-- One pairing pass of `buildMerkleTree` (main.go:134–138): for `i` stepping by
2 from 1, emit `NewMerkleNode(nodes[i], nodes[i-1], nil)` — the node at the odd
position becomes the left child, its predecessor the right child. An unpaired
trailing node (odd length, unreachable in the builder) is dropped, as the Go
loop bound `i < len(nodes)` drops it. -/
def pairUp : List MerkleNode → List MerkleNode
  | a :: b :: rest => NewMerkleNode (some b) (some a) none :: pairUp rest
  | _ => []

/-- `nodes = append(nodes, nodes[len(nodes)-1])`: duplicate the last node. -/
def dupLast (ns : List MerkleNode) : List MerkleNode :=
  match ns.getLast? with
  | some x => ns ++ [x]
  | none => ns

/-- One iteration of the `for len(nodes) > 1` loop body (main.go:133–142):
pair up, then duplicate the last new node if the new level is odd and has more
than one node. -/
def levelStep (ns : List MerkleNode) : List MerkleNode :=
  if (pairUp ns).length % 2 ≠ 0 ∧ 1 < (pairUp ns).length then dupLast (pairUp ns)
  else pairUp ns

/-- The `for len(nodes) > 1` loop (main.go:132–143). Termination: a pairing
pass halves the level and the conditional duplication adds back at most one
node, so a level of more than one node strictly shrinks. -/
def buildLoop (ns : List MerkleNode) : List MerkleNode :=
  if h : 1 < ns.length then buildLoop (levelStep ns) else ns
termination_by ns.length
decreasing_by
  have hp : ∀ k (ms : List MerkleNode), ms.length ≤ k → (pairUp ms).length = ms.length / 2 := by
    intro k
    induction k with
    | zero =>
      intro ms hm
      cases ms with
      | nil => simp [pairUp]
      | cons a rest => simp at hm
    | succ k ih =>
      intro ms hm
      cases ms with
      | nil => simp [pairUp]
      | cons a rest =>
        cases rest with
        | nil => simp [pairUp]
        | cons b rest2 =>
          have hr := ih rest2 (by simp at hm; omega)
          simp [pairUp, hr]
          omega
  have hple := hp ns.length ns le_rfl
  unfold levelStep
  split
  · next hc =>
    rcases hc with ⟨hodd, hgt⟩
    have hne : pairUp ns ≠ [] := by
      intro he
      rw [he] at hgt
      simp at hgt
    unfold dupLast
    cases hg : (pairUp ns).getLast? with
    | none =>
      rw [List.getLast?_eq_none_iff] at hg
      exact absurd hg hne
    | some y =>
      simp only [List.length_append, List.length_singleton]
      omega
  · omega

/-- The leaf level (main.go:123–126): one leaf node per input block, in order. -/
def leavesOf (data : List (List Nat)) : List MerkleNode :=
  data.map fun d => leaf d

/-- `buildMerkleTree` (main.go:122–161): build the leaf level, duplicate the
last node if the count is odd (this initial duplication has no `> 1` guard),
run the pairing loop, and wrap the surviving node — or return `none` (Go `nil`)
when no node remains. `FileCount` is the original input length; `RootHash` is
the hex of the root's hash (the root is never nil here). -/
def buildMerkleTree (data : List (List Nat)) (now : Nat) : Option MerkleTree :=
  let nodes := leavesOf data
  let nodes := if nodes.length % 2 ≠ 0 then dupLast nodes else nodes
  match buildLoop nodes with
  | [] => none
  | root :: _ => some ⟨root, now, data.length, hexEncode root.hash⟩

/-- The root digest of a built tree, when a tree was built at all. -/
def rootDigest (t : Option MerkleTree) : Option (List Nat) :=
  t.map fun tr => tr.root.hash

/-! ## The children invariant: a node has either no child or both -/

/-- The children invariant of the spec's data model, checked hereditarily:
a node either has no left and no right child (a leaf) or has both (an
internal node), and so does every node below it. -/
def goodNode : MerkleNode → Bool
  | .mk none none _ => true
  | .mk (some l) (some r) _ => goodNode l && goodNode r
  | .mk _ _ _ => false

/-! ## File hashing (`hashFile`, lines 334–392)

A file on disk is modelled by its stat data and content. The context
parameter of the Go function only matters for cancellation; the model is the
success path of an undone context (the cancellation checks at main.go:336–341
and main.go:370–374 fall through). -/

/-- What `os.Open`/`Stat` yield for a path that exists: directory flag,
`stat.Size()`, and the readable content. For a regular file the content's
length is its size; the embedding keeps them separate fields because
`hashFile` consults only `stat.Size()` to choose its branch. -/
structure FileStat where
  isDir : Bool
  size : Nat
  content : List Nat

/-- `hashFile` (main.go:334–392): reject directories; read and hash the whole
content when `size <= 5*1024*1024`; hash the content in 1 MB chunks when
`size <= 50*1024*1024`; otherwise **no branch writes to the hasher** and the
digest of the empty byte sequence is returned with a nil error. -/
def hashFile (f : FileStat) : Except String (List Nat) :=
  if f.isDir then Except.error "is a directory"
  else if f.size ≤ 5242880 then Except.ok (sha256 f.content)
  else if f.size ≤ 52428800 then
    Except.ok (sha256 (concatAll (chunkAux 1048576 [] f.content)))
  else Except.ok (sha256 [])

/-! ## The bounded hashing scheduler (`hashFiles`, `hashFilesWithTimeout`)

The worker pool (main.go:244–332) is concurrent: results arrive on the
results channel in an order decided by the scheduler, not by the input. The
embedding makes that order an explicit parameter `arrival`. On a successful
run every dispatched file is hashed exactly once, so `arrival` is a
permutation of the dispatched path list — the theorems below carry that as a
hypothesis. Worker count, channel capacities and the timeout value do not
affect the success value and are not modelled; error outcomes
(worker error, timeout, premature channel closure) are the non-success
branches, likewise outside the success value modelled here. -/

/-- `sort.Strings(files)` (main.go:234): sort paths lexicographically. -/
def sortStrings (files : List String) : List String :=
  List.insertionSort (fun a b => a ≤ b) files

/-- The ordering used on aggregated results (main.go:323–325):
`hashedFiles[i].File < hashedFiles[j].File`, i.e. order by path. The model
uses the reflexive closure `≤` so the sort is total; entries with equal paths
carry equal digests, so any path-ordered rearrangement yields the same
stripped digest list as Go's (unstable) `sort.Slice`. -/
def hashResultLE (a b : String × List Nat) : Prop := a.1 ≤ b.1

instance : DecidableRel hashResultLE := fun a b => String.decidableLE a.1 b.1

/-- The `HashResult` records a successful run aggregates: each arriving path
paired with its digest (`HashResult{File: job, Hash: hash}`, main.go:273). -/
def hashResultsOf (digest : String → List Nat) (arrival : List String) :
    List (String × List Nat) :=
  arrival.map fun p => (p, digest p)

/-- Success value of `hashFilesWithTimeout` (main.go:244–332): aggregate the
results in arrival order, sort them by path, and strip the paths, keeping the
ordered digest list. -/
def hashFilesWithTimeout (digest : String → List Nat) (files arrival : List String) :
    List (List Nat) :=
  (List.insertionSort hashResultLE (hashResultsOf digest arrival)).map Prod.snd

/-- `hashFiles` (main.go:227–237): reject an empty path list with
"no files provided", otherwise sort the paths and dispatch them to
`hashFilesWithTimeout` (with the 30-second default timeout). -/
def hashFiles (digest : String → List Nat) (files arrival : List String) :
    Except String (List (List Nat)) :=
  if files.length = 0 then Except.error "no files provided"
  else Except.ok (hashFilesWithTimeout digest (sortStrings files) arrival)

/-! ## Direct file paths (`hashDirectFilePaths`, lines 203–225) -/

/-- The file-system facts `hashDirectFilePaths` consults: `os.Stat` (an error,
or whether the path is a directory), `filepath.Abs` (modelled total — path
canonicalization itself never fails in the runs modelled here), and the digest
each path hashes to on success. -/
structure FileSystem where
  statIsDir : String → Except String Bool
  absPath : String → String
  digest : String → List Nat

/-- The path-collecting loop of `hashDirectFilePaths` (main.go:205–222): stat
each path in order; propagate the first stat error; reject a directory with
"cannot hash directories along with filepaths"; otherwise collect the
absolute paths in order. -/
def collectDirectPaths (env : FileSystem) : List String → Except String (List String)
  | [] => Except.ok []
  | f :: rest =>
    match env.statIsDir f with
    | Except.error e => Except.error e
    | Except.ok true => Except.error "cannot hash directories along with filepaths"
    | Except.ok false =>
      match collectDirectPaths env rest with
      | Except.error e => Except.error e
      | Except.ok ps => Except.ok (env.absPath f :: ps)

/-- `hashDirectFilePaths` (main.go:203–225): collect the absolute paths (which
rejects directories), then hand them to `hashFiles`. -/
def hashDirectFilePaths (env : FileSystem) (filenames arrival : List String) :
    Except String (List (List Nat)) :=
  match collectDirectPaths env filenames with
  | Except.error e => Except.error e
  | Except.ok paths => hashFiles env.digest paths arrival

/-- A concrete file-system environment used as a witness input: "dir" is a
directory, everything else a regular file. -/
def cEnv : FileSystem where
  statIsDir := fun p => Except.ok (decide (p = "dir"))
  absPath := fun p => p
  digest := fun _ => []

/-! ## General lemmas: SHA-256 test vectors and output shape -/

example : sha256 [] =
    [0xe3, 0xb0, 0xc4, 0x42, 0x98, 0xfc, 0x1c, 0x14, 0x9a, 0xfb, 0xf4, 0xc8, 0x99, 0x6f, 0xb9, 0x24,
     0x27, 0xae, 0x41, 0xe4, 0x64, 0x9b, 0x93, 0x4c, 0xa4, 0x95, 0x99, 0x1b, 0x78, 0x52, 0xb8, 0x55] := by
  decide

example : sha256 [0x61, 0x62, 0x63] =
    [0xba, 0x78, 0x16, 0xbf, 0x8f, 0x01, 0xcf, 0xea, 0x41, 0x41, 0x40, 0xde, 0x5d, 0xae, 0x22, 0x23,
     0xb0, 0x03, 0x61, 0xa3, 0x96, 0x17, 0x7a, 0x9c, 0xb4, 0x10, 0xff, 0x61, 0xf2, 0x00, 0x15, 0xad] := by
  decide

/-- Chunked reading feeds exactly the original content to the hasher. -/
theorem concatAll_chunkAux (sz : Nat) :
    ∀ (l acc : List Nat), concatAll (chunkAux sz acc l) = acc ++ l
  | [], acc => by
    by_cases h : acc.isEmpty
    · rw [List.isEmpty_iff] at h
      simp [chunkAux, h, concatAll]
    · rw [chunkAux, if_neg (by simpa using h)]
      simp [concatAll]
  | b :: rest, acc => by
    rw [chunkAux]
    split
    · simp [concatAll, concatAll_chunkAux sz rest []]
    · simp [concatAll_chunkAux sz rest (acc ++ [b])]

/-! ## General lemmas: the builder -/

/-- `pairUp` halves the node count (rounding down). -/
theorem pairUp_length : ∀ ns : List MerkleNode, (pairUp ns).length = ns.length / 2
  | [] => by simp [pairUp]
  | [_] => by simp [pairUp]
  | _ :: _ :: rest => by
    simp only [pairUp, List.length_cons, pairUp_length rest]
    omega

/-- Duplicating the last element of a nonempty list adds one to the length. -/
theorem dupLast_length (ns : List MerkleNode) (h : ns ≠ []) :
    (dupLast ns).length = ns.length + 1 := by
  unfold dupLast
  cases hg : ns.getLast? with
  | none => exact absurd (List.getLast?_eq_none_iff.mp hg) h
  | some x => simp

/-- Each loop iteration strictly shrinks a level of more than one node. -/
theorem levelStep_length_lt (ns : List MerkleNode) (h : 1 < ns.length) :
    (levelStep ns).length < ns.length := by
  unfold levelStep
  split
  · next hcond =>
    have hne : pairUp ns ≠ [] := by
      intro he
      have := pairUp_length ns
      rw [he] at this
      simp at this
      omega
    rw [dupLast_length _ hne, pairUp_length]
    have := pairUp_length ns
    rcases hcond with ⟨hodd, hgt⟩
    rw [this] at hgt
    omega
  · rw [pairUp_length]
    omega

/-- Unfolding the builder loop when more than one node remains. -/
theorem buildLoop_step (ns : List MerkleNode) (h : 1 < ns.length) :
    buildLoop ns = buildLoop (levelStep ns) := by
  rw [buildLoop.eq_def, dif_pos h]

/-- The builder loop stops at zero or one node. -/
theorem buildLoop_done (ns : List MerkleNode) (h : ¬ 1 < ns.length) :
    buildLoop ns = ns := by
  rw [buildLoop.eq_def, dif_neg h]

/-- Building from one block: the single leaf is duplicated by the initial
odd-count rule (which has no `> 1` guard, main.go:128–130) and one combination
step runs, so the root is an internal node with the leaf as both children and
digest `sha256 (sha256 d ++ sha256 d)`. -/
theorem buildMerkleTree_single (d : List Nat) (t : Nat) :
    buildMerkleTree [d] t =
      some ⟨NewMerkleNode (some (leaf d)) (some (leaf d)) none, t, 1,
            hexEncode (sha256 (sha256 d ++ sha256 d))⟩ := by
  simp [buildMerkleTree, leavesOf, dupLast, levelStep, pairUp, buildLoop_step,
        buildLoop_done, NewMerkleNode, nodeInput, leaf, MerkleNode.hash]

/-- Building from two blocks: a single pairing pass with the swapped sibling
order, root digest `sha256 (sha256 B ++ sha256 A)`. -/
theorem buildMerkleTree_pair (A B : List Nat) (t : Nat) :
    buildMerkleTree [A, B] t =
      some ⟨NewMerkleNode (some (leaf B)) (some (leaf A)) none, t, 2,
            hexEncode (sha256 (sha256 B ++ sha256 A))⟩ := by
  simp [buildMerkleTree, leavesOf, dupLast, levelStep, pairUp, buildLoop_step,
        buildLoop_done, NewMerkleNode, nodeInput, leaf, MerkleNode.hash]

/-- Building from three blocks: the last leaf is duplicated giving the level
`[L1, L2, L3, L3]`, the pairing pass produces the parents `(L2, L1)` and
`(L3, L3)`, and a second pass combines them (swapped order again) into the
root. -/
theorem buildMerkleTree_three (d1 d2 d3 : List Nat) (t : Nat) :
    buildMerkleTree [d1, d2, d3] t =
      some ⟨NewMerkleNode
              (some (NewMerkleNode (some (leaf d3)) (some (leaf d3)) none))
              (some (NewMerkleNode (some (leaf d2)) (some (leaf d1)) none)) none, t, 3,
            hexEncode (sha256 (sha256 (sha256 d3 ++ sha256 d3) ++
                               sha256 (sha256 d2 ++ sha256 d1)))⟩ := by
  simp [buildMerkleTree, leavesOf, dupLast, levelStep, pairUp, buildLoop_step,
        buildLoop_done, NewMerkleNode, nodeInput, leaf, MerkleNode.hash]

/-! ## General lemmas: the children invariant -/

/-- Leaves satisfy the children invariant. -/
theorem goodNode_leaf (d : List Nat) : goodNode (leaf d) = true := rfl

/-- An internal node over two invariant-satisfying children satisfies it. -/
theorem goodNode_internal (l r : MerkleNode) (hl : goodNode l = true)
    (hr : goodNode r = true) :
    goodNode (NewMerkleNode (some l) (some r) none) = true := by
  simp [NewMerkleNode, goodNode, hl, hr]

/-- A pairing pass preserves the children invariant. -/
theorem pairUp_good : ∀ ns : List MerkleNode, (∀ n ∈ ns, goodNode n = true) →
    ∀ n ∈ pairUp ns, goodNode n = true
  | [], _ => by simp [pairUp]
  | [a], _ => by simp [pairUp]
  | a :: b :: rest, h => by
    intro n hn
    rw [pairUp] at hn
    rcases List.mem_cons.mp hn with rfl | hn
    · exact goodNode_internal b a (h b (by simp)) (h a (by simp))
    · exact pairUp_good rest (fun m hm => h m (by simp [hm])) n hn

/-- Duplicating the last node introduces no new node. -/
theorem mem_dupLast {ns : List MerkleNode} {x : MerkleNode} (hx : x ∈ dupLast ns) :
    x ∈ ns := by
  unfold dupLast at hx
  cases hg : ns.getLast? with
  | none => rwa [hg] at hx
  | some y =>
    rw [hg] at hx
    rcases List.mem_append.mp hx with h | h
    · exact h
    · rcases List.mem_singleton.mp h with rfl
      rcases List.mem_getLast?_eq_getLast (by rw [hg]; rfl) with ⟨hne, hy⟩
      exact hy ▸ List.getLast_mem hne

/-- One loop iteration preserves the children invariant. -/
theorem levelStep_good (ns : List MerkleNode) (hns : ∀ n ∈ ns, goodNode n = true) :
    ∀ n ∈ levelStep ns, goodNode n = true := by
  intro n hn
  unfold levelStep at hn
  split at hn
  · exact pairUp_good ns hns n (mem_dupLast hn)
  · exact pairUp_good ns hns n hn

/-- The whole builder loop preserves the children invariant. -/
theorem buildLoop_good (ns : List MerkleNode) (hns : ∀ n ∈ ns, goodNode n = true) :
    ∀ n ∈ buildLoop ns, goodNode n = true := by
  by_cases h : 1 < ns.length
  · rw [buildLoop_step ns h]
    exact buildLoop_good (levelStep ns) (levelStep_good ns hns)
  · rw [buildLoop_done ns h]
    exact hns
termination_by ns.length
decreasing_by exact levelStep_length_lt ns h

/-! ## General lemmas: the scheduler's sorting -/

/-- Inserting a path-keyed (path, digest) pair sorts exactly as its path does. -/
theorem orderedInsert_hashResults (digest : String → List Nat) (p : String) :
    ∀ l : List String,
      List.orderedInsert hashResultLE (p, digest p) (l.map fun q => (q, digest q)) =
      (List.orderedInsert (fun a b => a ≤ b) p l).map fun q => (q, digest q)
  | [] => rfl
  | q :: l => by
    simp only [List.map_cons, List.orderedInsert, hashResultLE]
    by_cases h : p ≤ q
    · rw [if_pos h, if_pos h]
      simp
    · rw [if_neg h, if_neg h]
      simp [orderedInsert_hashResults digest p l]

/-- Sorting path-keyed (path, digest) pairs sorts exactly as the paths do. -/
theorem insertionSort_hashResults (digest : String → List Nat) :
    ∀ l : List String,
      List.insertionSort hashResultLE (l.map fun q => (q, digest q)) =
      (List.insertionSort (fun a b => a ≤ b) l).map fun q => (q, digest q)
  | [] => rfl
  | q :: l => by
    simp only [List.map_cons, List.insertionSort, insertionSort_hashResults digest l]
    exact orderedInsert_hashResults digest q (List.insertionSort _ l)

/-- The scheduler's success value: the digests of the arrived paths, in
path-sorted order. -/
theorem hashFilesWithTimeout_eq (digest : String → List Nat) (files arrival : List String) :
    hashFilesWithTimeout digest files arrival = (sortStrings arrival).map digest := by
  unfold hashFilesWithTimeout hashResultsOf sortStrings
  rw [insertionSort_hashResults]
  simp [List.map_map, Function.comp]

/-- Sorting is invariant under permutation of the input list. -/
theorem sortStrings_eq_of_perm {l1 l2 : List String} (h : l1.Perm l2) :
    sortStrings l1 = sortStrings l2 := by
  haveI : IsTotal String (fun a b : String => a ≤ b) := ⟨le_total⟩
  haveI : IsTrans String (fun a b : String => a ≤ b) := ⟨fun a b c => le_trans⟩
  haveI : IsAntisymm String (fun a b : String => a ≤ b) := ⟨fun a b => le_antisymm⟩
  exact List.eq_of_perm_of_sorted
    ((List.perm_insertionSort _ l1).trans (h.trans (List.perm_insertionSort _ l2).symm))
    (List.sorted_insertionSort _ l1) (List.sorted_insertionSort _ l2)

/-! ## General lemmas: pairing by index, and the shape of SHA-256 output -/

/-- The pairing pass, read off by index: entry `i` of the new level is the
parent of `nodes[2i+1]` (left) and `nodes[2i]` (right). -/
theorem pairUp_getElem? : ∀ (ns : List MerkleNode) (i : Nat), 2 * i + 1 < ns.length →
    (pairUp ns)[i]? = some (NewMerkleNode ns[2 * i + 1]? ns[2 * i]? none)
  | [], i, h => by simp at h
  | [a], i, h => by
    simp only [List.length_singleton] at h
    omega
  | a :: b :: rest, 0, h => by simp [pairUp]
  | a :: b :: rest, i + 1, h => by
    have h2 : 2 * i + 1 < rest.length := by
      simp only [List.length_cons] at h
      omega
    have ih := pairUp_getElem? rest i h2
    rw [pairUp]
    have e1 : 2 * (i + 1) + 1 = 2 * i + 1 + 1 + 1 := by omega
    have e0 : 2 * (i + 1) = 2 * i + 1 + 1 := by omega
    rw [e1, e0]
    simp only [List.getElem?_cons_succ]
    exact ih

/-- A compression round preserves the state width. -/
theorem shaRound_length (kw : Nat × Nat) (st : List Nat) :
    (shaRound kw st).length = st.length := by
  unfold shaRound
  split <;> simp

/-- Folding compression rounds preserves the state width. -/
theorem foldl_shaRound_length (l : List (Nat × Nat)) (st : List Nat) :
    (l.foldl (fun s kw => shaRound kw s) st).length = st.length := by
  induction l generalizing st with
  | nil => rfl
  | cons kw l ih => rw [List.foldl_cons, ih, shaRound_length]

/-- A block compression preserves the state width. -/
theorem compressBlock_length (H block : List Nat) :
    (compressBlock H block).length = H.length := by
  unfold compressBlock
  rw [List.length_zipWith, foldl_shaRound_length]
  simp

/-- Folding block compressions preserves the state width. -/
theorem foldl_compressBlock_length (bs : List (List Nat)) (H : List Nat) :
    (bs.foldl compressBlock H).length = H.length := by
  induction bs generalizing H with
  | nil => rfl
  | cons b bs ih => rw [List.foldl_cons, ih, compressBlock_length]

/-- Serializing `k` words yields `4k` bytes. -/
theorem concatAll_wordBytes_length : ∀ ws : List Nat,
    (concatAll (ws.map wordBytes)).length = 4 * ws.length
  | [] => rfl
  | w :: ws => by
    simp [concatAll, wordBytes, concatAll_wordBytes_length ws]
    omega

/-- A SHA-256 digest has 32 bytes. -/
theorem sha256_length (msg : List Nat) : (sha256 msg).length = 32 := by
  unfold sha256
  rw [concatAll_wordBytes_length, foldl_compressBlock_length]
  rfl

/-- Every element of a concatenation is an element of one of the parts. -/
theorem mem_concatAll {α : Type} {x : α} : ∀ {ls : List (List α)},
    x ∈ concatAll ls → ∃ l ∈ ls, x ∈ l
  | [], h => by simp [concatAll] at h
  | c :: cs, h => by
    rw [concatAll] at h
    rcases List.mem_append.mp h with h | h
    · exact ⟨c, by simp, h⟩
    · rcases mem_concatAll h with ⟨l, hl, hxl⟩
      exact ⟨l, by simp [hl], hxl⟩

/-- Word serialization produces bytes. -/
theorem mem_wordBytes_lt {w x : Nat} (hx : x ∈ wordBytes w) : x < 256 := by
  have h255 : ∀ n : Nat, n &&& 255 < 256 := fun n =>
    Nat.lt_succ_of_le Nat.and_le_right
  have hx4 : x = (w >>> 24) &&& 255 ∨ x = (w >>> 16) &&& 255 ∨
      x = (w >>> 8) &&& 255 ∨ x = w &&& 255 := by
    simpa [wordBytes] using hx
  rcases hx4 with rfl | rfl | rfl | rfl <;> exact h255 _

/-- A SHA-256 digest consists of bytes. -/
theorem sha256_mem_lt {msg : List Nat} {x : Nat} (hx : x ∈ sha256 msg) : x < 256 := by
  unfold sha256 at hx
  rcases mem_concatAll hx with ⟨l, hl, hxl⟩
  rcases List.mem_map.mp hl with ⟨w, _, rfl⟩
  exact mem_wordBytes_lt hxl

/-- The root digest of a two-block tree, explicitly. -/
theorem rootDigest_pair (A B : List Nat) (t : Nat) :
    rootDigest (buildMerkleTree [A, B] t) = some (sha256 (sha256 B ++ sha256 A)) := by
  rw [buildMerkleTree_pair]
  simp [rootDigest, NewMerkleNode, MerkleNode.hash, nodeInput, leaf]

/-- The root digest of a one-block tree, explicitly. -/
theorem rootDigest_single (d : List Nat) (t : Nat) :
    rootDigest (buildMerkleTree [d] t) = some (sha256 (sha256 d ++ sha256 d)) := by
  rw [buildMerkleTree_single]
  simp [rootDigest, NewMerkleNode, MerkleNode.hash, nodeInput, leaf]

/-! ## The claims -/

/-- C1, counterexample: for the one-element input `["a"]`, the root digest is
not the leaf digest — the initial odd-count duplication (main.go:128–130) has
no size guard, so the single leaf is paired with itself. -/
theorem C1_single_leaf_counterexample :
    rootDigest (buildMerkleTree [[97]] 0) ≠ some (sha256 [97]) := by
  rw [rootDigest_single]
  intro h
  exact absurd (Option.some.inj h) (by decide)

/-- C1, amended: for a one-element input list, `buildMerkleTree` duplicates
the single leaf and performs one combination step: the returned tree wraps an
internal root whose two children are both that leaf, with root digest
`sha256 (sha256 d ++ sha256 d)` (not the leaf digest `sha256 d`), and a leaf
count of 1. -/
theorem C1_single_leaf_amended (d : List Nat) (t : Nat) :
    buildMerkleTree [d] t =
      some ⟨NewMerkleNode (some (leaf d)) (some (leaf d)) none, t, 1,
            hexEncode (sha256 (sha256 d ++ sha256 d))⟩ ∧
    rootDigest (buildMerkleTree [d] t) = some (sha256 (sha256 d ++ sha256 d)) :=
  ⟨buildMerkleTree_single d t, rootDigest_single d t⟩

/-- C2: for every regular (non-directory) file whose size exceeds
`50*1024*1024` bytes, `hashFile` returns without error the SHA-256 digest of
the empty byte sequence (the well-known `e3b0c442…` value) — neither size
branch runs, so the content never reaches the hasher. -/
theorem C2_hashFile_large (f : FileStat) (hd : f.isDir = false)
    (hs : 52428800 < f.size) :
    hashFile f = Except.ok (sha256 []) ∧
    sha256 [] =
      [0xe3, 0xb0, 0xc4, 0x42, 0x98, 0xfc, 0x1c, 0x14,
       0x9a, 0xfb, 0xf4, 0xc8, 0x99, 0x6f, 0xb9, 0x24,
       0x27, 0xae, 0x41, 0xe4, 0x64, 0x9b, 0x93, 0x4c,
       0xa4, 0x95, 0x99, 0x1b, 0x78, 0x52, 0xb8, 0x55] := by
  constructor
  · simp only [hashFile, hd, Bool.false_eq_true, if_false]
    rw [if_neg (by omega), if_neg (by omega)]
  · decide

/-- C2, witness: a 50 MB + 1 byte regular file takes the no-hash branch. -/
theorem C2_hashFile_large_witness :
    (FileStat.mk false 52428801 [1, 2, 3]).isDir = false ∧
    52428800 < (FileStat.mk false 52428801 [1, 2, 3]).size ∧
    hashFile (FileStat.mk false 52428801 [1, 2, 3]) = Except.ok (sha256 []) :=
  ⟨rfl, by decide, (C2_hashFile_large ⟨false, 52428801, [1, 2, 3]⟩ rfl (by decide)).1⟩

/-- C3: in every pairing pass of `buildMerkleTree` (each iteration of the
loop applies `pairUp` to the level), entry `i` of the new level is
`NewMerkleNode nodes[2i+1] nodes[2i] nil` — the odd-position node is the left
child, its even-position predecessor the right child — and the parent digest
is the hash of the left child's bytes followed by the right child's bytes. -/
theorem C3_swapped_pairing :
    (∀ (ns : List MerkleNode) (i : Nat), 2 * i + 1 < ns.length →
      (pairUp ns)[i]? = some (NewMerkleNode ns[2 * i + 1]? ns[2 * i]? none)) ∧
    (∀ l r : MerkleNode,
      (NewMerkleNode (some l) (some r) none).hash = sha256 (l.hash ++ r.hash)) ∧
    (∀ ns : List MerkleNode, 1 < ns.length → buildLoop ns = buildLoop (levelStep ns)) := by
  refine ⟨pairUp_getElem?, ?_, buildLoop_step⟩
  intro l r
  simp [NewMerkleNode, MerkleNode.hash, nodeInput]

/-- C3, witness: the pairing rule at a concrete two-node level. -/
theorem C3_swapped_pairing_witness :
    2 * 0 + 1 < [leaf [0], leaf [1]].length ∧
    (pairUp [leaf [0], leaf [1]])[0]? =
      some (NewMerkleNode [leaf [0], leaf [1]][1]? [leaf [0], leaf [1]][0]? none) :=
  ⟨by decide, C3_swapped_pairing.1 [leaf [0], leaf [1]] 0 (by decide)⟩

/-- C4: from three leaves the builder duplicates the last leaf (level
`[L1, L2, L3, L3]`), pairs it into the parents `(L2, L1)` and `(L3, L3)`, and
combines those two parents into the root in the documented (swapped) order. -/
theorem C4_three_leaves (d1 d2 d3 : List Nat) (t : Nat) :
    buildMerkleTree [d1, d2, d3] t =
      some ⟨NewMerkleNode
              (some (NewMerkleNode (some (leaf d3)) (some (leaf d3)) none))
              (some (NewMerkleNode (some (leaf d2)) (some (leaf d1)) none)) none, t, 3,
            hexEncode (sha256 (sha256 (sha256 d3 ++ sha256 d3) ++
                               sha256 (sha256 d2 ++ sha256 d1)))⟩ :=
  buildMerkleTree_three d1 d2 d3 t

/-- C5: the root digest (raw bytes and hex string alike) is a pure function of
the ordered leaf sequence — building twice from the same sequence, at any two
creation timestamps, yields byte-wise identical root digests. -/
theorem C5_deterministic_root (data : List (List Nat)) (t1 t2 : Nat) :
    rootDigest (buildMerkleTree data t1) = rootDigest (buildMerkleTree data t2) ∧
    (buildMerkleTree data t1).map (fun tr => tr.rootHash) =
      (buildMerkleTree data t2).map (fun tr => tr.rootHash) := by
  simp only [buildMerkleTree, rootDigest]
  cases hb : buildLoop (if (leavesOf data).length % 2 ≠ 0 then dupLast (leavesOf data)
      else leavesOf data) with
  | nil => simp
  | cons root rest => simp

/-- C6: on success the scheduler's digest list is ordered by lexicographically
sorted path — `hashFiles` sorts before dispatch and `hashFilesWithTimeout`
sorts the aggregated (path, digest) results by path before stripping paths —
so any two permutations of the same path list, under any completion orders,
give the same ordered digest list. -/
theorem C6_sorted_output (digest : String → List Nat) (p1 p2 a1 a2 : List String)
    (hp : p1.Perm p2) (h1 : a1.Perm p1) (h2 : a2.Perm p2) :
    (p1 ≠ [] → hashFiles digest p1 a1 = Except.ok ((sortStrings p1).map digest)) ∧
    hashFiles digest p1 a1 = hashFiles digest p2 a2 := by
  have key : ∀ (p a : List String), a.Perm p → p ≠ [] →
      hashFiles digest p a = Except.ok ((sortStrings p).map digest) := by
    intro p a hap hne
    unfold hashFiles
    rw [if_neg (by simpa using hne), hashFilesWithTimeout_eq,
        sortStrings_eq_of_perm hap]
  constructor
  · exact key p1 a1 h1
  · by_cases hne : p1 = []
    · subst hne
      have hne2 : p2 = [] := hp.symm.eq_nil
      subst hne2
      rfl
    · have hne2 : p2 ≠ [] := by
        intro h
        subst h
        exact hne hp.eq_nil
      rw [key p1 a1 h1 hne, key p2 a2 h2 hne2, sortStrings_eq_of_perm hp]

/-- C6, witness: the permuted path lists `["b","a"]` and `["a","b"]`, under
opposite completion orders, give the same path-sorted digest list. -/
theorem C6_sorted_output_witness :
    List.Perm ["b", "a"] ["a", "b"] ∧ List.Perm ["a", "b"] ["b", "a"] ∧
    List.Perm ["b", "a"] ["a", "b"] ∧
    ((["b", "a"] ≠ ([] : List String) →
        hashFiles (fun p => [p.length]) ["b", "a"] ["a", "b"] =
          Except.ok ((sortStrings ["b", "a"]).map fun p => [p.length])) ∧
      hashFiles (fun p => [p.length]) ["b", "a"] ["a", "b"] =
        hashFiles (fun p => [p.length]) ["a", "b"] ["b", "a"]) :=
  ⟨by decide, by decide, by decide,
   C6_sorted_output (fun p => [p.length]) ["b", "a"] ["a", "b"] ["a", "b"] ["b", "a"]
     (by decide) (by decide) (by decide)⟩

/-- C7: empty input is an error in the scheduler but a null result in the
builder — `hashFiles` on a zero-length path list reports "no files provided"
(whatever the digest function and completion order), while `buildMerkleTree`
on an empty slice returns `none` without signalling an error. -/
theorem C7_empty_input :
    (∀ (digest : String → List Nat) (arrival : List String),
      hashFiles digest [] arrival = Except.error "no files provided") ∧
    (∀ t : Nat, buildMerkleTree [] t = none) := by
  constructor
  · intro digest arrival
    rfl
  · intro t
    simp [buildMerkleTree, leavesOf, dupLast, buildLoop_done]

/-- C8: in direct-file-list mode, if some supplied path is a directory (and
the paths stat cleanly, so the loop reaches it), `hashDirectFilePaths` returns
the error "cannot hash directories along with filepaths" and produces no
digests — the directory is never expanded. -/
theorem C8_directory_rejected (env : FileSystem) (filenames arrival : List String)
    (hok : ∀ g ∈ filenames, ∃ b, env.statIsDir g = Except.ok b)
    (hdir : ∃ f ∈ filenames, env.statIsDir f = Except.ok true) :
    hashDirectFilePaths env filenames arrival =
      Except.error "cannot hash directories along with filepaths" := by
  have hcol : ∀ fns : List String, (∀ g ∈ fns, ∃ b, env.statIsDir g = Except.ok b) →
      (∃ f ∈ fns, env.statIsDir f = Except.ok true) →
      collectDirectPaths env fns =
        Except.error "cannot hash directories along with filepaths" := by
    intro fns
    induction fns with
    | nil =>
      intro _ hdir'
      rcases hdir' with ⟨f, hf, _⟩
      simp at hf
    | cons g rest ih =>
      intro hok' hdir'
      simp only [collectDirectPaths]
      rcases hok' g (by simp) with ⟨b, hb⟩
      rw [hb]
      cases b with
      | true => rfl
      | false =>
        have hdr : ∃ f ∈ rest, env.statIsDir f = Except.ok true := by
          rcases hdir' with ⟨f, hf, hft⟩
          rcases List.mem_cons.mp hf with rfl | hf2
          · rw [hb] at hft
            exact absurd (Except.ok.inj hft) (by simp)
          · exact ⟨f, hf2, hft⟩
        rw [ih (fun x hx => hok' x (by simp [hx])) hdr]
  unfold hashDirectFilePaths
  rw [hcol filenames hok hdir]

/-- C8, witness: the list `["a", "dir"]` with "dir" a directory is rejected. -/
theorem C8_directory_rejected_witness :
    (∀ g ∈ ["a", "dir"], ∃ b, cEnv.statIsDir g = Except.ok b) ∧
    (∃ f ∈ ["a", "dir"], cEnv.statIsDir f = Except.ok true) ∧
    hashDirectFilePaths cEnv ["a", "dir"] [] =
      Except.error "cannot hash directories along with filepaths" :=
  ⟨fun g _ => ⟨decide (g = "dir"), rfl⟩, ⟨"dir", by simp, rfl⟩,
   C8_directory_rejected cEnv ["a", "dir"] []
     (fun g _ => ⟨decide (g = "dir"), rfl⟩) ⟨"dir", by simp, rfl⟩⟩

/-- C9, counterexample: the claim as stated — for ALL distinct raw content
blocks the roots of `[A,B]` and `[B,A]` differ — is false: SHA-256 maps
infinitely many byte lists into 32 bytes, so by pigeonhole two distinct
blocks share a leaf digest, and the two opposite-order trees then share their
root digest. (The collision is non-constructive; no explicit pair is known,
which is exactly why the claim needs its no-collision hypothesis.) -/
theorem C9_order_sensitivity_counterexample :
    ¬ (∀ A B : List Nat, (∀ x ∈ A, x < 256) → (∀ x ∈ B, x < 256) → A ≠ B →
        rootDigest (buildMerkleTree [A, B] 0) ≠ rootDigest (buildMerkleTree [B, A] 0)) := by
  intro hcl
  obtain ⟨n, m, hnm, hf⟩ := Finite.exists_ne_map_eq_of_infinite
    (fun n : Nat => fun i : Fin 32 =>
      (⟨min ((sha256 (List.replicate n 0)).getD i.val 0) 255, by omega⟩ : Fin 256))
  have hsha : sha256 (List.replicate n 0) = sha256 (List.replicate m 0) := by
    apply List.ext_getElem (by rw [sha256_length, sha256_length])
    intro i hi1 hi2
    have hi32 : i < 32 := by rwa [sha256_length] at hi1
    have hfi := congrFun hf ⟨i, hi32⟩
    simp only [Fin.mk.injEq] at hfi
    rw [List.getD_eq_getElem (sha256 (List.replicate n 0)) 0 hi1,
        List.getD_eq_getElem (sha256 (List.replicate m 0)) 0 hi2] at hfi
    have hAlt : (sha256 (List.replicate n 0))[i] ≤ 255 := by
      have := sha256_mem_lt (List.getElem_mem hi1)
      omega
    have hBlt : (sha256 (List.replicate m 0))[i] ≤ 255 := by
      have := sha256_mem_lt (List.getElem_mem hi2)
      omega
    rwa [Nat.min_eq_left hAlt, Nat.min_eq_left hBlt] at hfi
  have hne : List.replicate n 0 ≠ List.replicate m 0 := by
    intro he
    exact hnm (by simpa using congrArg List.length he)
  apply hcl (List.replicate n 0) (List.replicate m 0)
    (fun x hx => by rcases List.eq_of_mem_replicate hx with rfl; omega)
    (fun x hx => by rcases List.eq_of_mem_replicate hx with rfl; omega)
    hne
  rw [rootDigest_pair, rootDigest_pair, hsha]

/-- C9, amended: for raw content blocks `A` and `B`, the root digests of the
trees built from `[A,B]` and `[B,A]` (at any timestamps) differ whenever
SHA-256 separates the two concatenation orders of the leaf digests — which
holds for generic distinct contents, and is verified concretely for
`A = "a"`, `B = "b"` in the witness. -/
theorem C9_order_sensitivity_amended (A B : List Nat) (t1 t2 : Nat)
    (h : sha256 (sha256 B ++ sha256 A) ≠ sha256 (sha256 A ++ sha256 B)) :
    rootDigest (buildMerkleTree [A, B] t1) ≠ rootDigest (buildMerkleTree [B, A] t2) := by
  rw [rootDigest_pair, rootDigest_pair]
  intro he
  exact h (Option.some.inj he)

/-- C9, witness: the concrete blocks "a" and "b" produce different roots in
the two orders — computed through the real SHA-256. -/
theorem C9_order_sensitivity_witness :
    sha256 (sha256 [98] ++ sha256 [97]) ≠ sha256 (sha256 [97] ++ sha256 [98]) ∧
    rootDigest (buildMerkleTree [[97], [98]] 0) ≠ rootDigest (buildMerkleTree [[98], [97]] 0) :=
  ⟨by decide, C9_order_sensitivity_amended [97] [98] 0 0 (by decide)⟩

/-- C10: every node of a tree returned by `buildMerkleTree` satisfies the
children invariant — it has either no child (a leaf) or both children (an
internal node), never exactly one. -/
theorem C10_children_invariant (data : List (List Nat)) (t : Nat) (tree : MerkleTree)
    (h : buildMerkleTree data t = some tree) : goodNode tree.root = true := by
  have hleaves : ∀ n ∈ leavesOf data, goodNode n = true := by
    intro n hn
    simp only [leavesOf] at hn
    rcases List.mem_map.mp hn with ⟨d, _, rfl⟩
    exact goodNode_leaf d
  have hinit : ∀ n ∈ (if (leavesOf data).length % 2 ≠ 0 then dupLast (leavesOf data)
      else leavesOf data), goodNode n = true := by
    intro n hn
    split at hn
    · exact hleaves n (mem_dupLast hn)
    · exact hleaves n hn
  have hloop := buildLoop_good _ hinit
  simp only [buildMerkleTree] at h
  cases hb : buildLoop (if (leavesOf data).length % 2 ≠ 0 then dupLast (leavesOf data)
      else leavesOf data) with
  | nil =>
    rw [hb] at h
    exact absurd h (by simp)
  | cons root rest =>
    rw [hb] at h
    have htr : tree = ⟨root, t, data.length, hexEncode root.hash⟩ := (Option.some.inj h).symm
    rw [htr]
    exact hloop root (by rw [hb]; simp)

/-- C10, witness: the tree built from `[[1]]` satisfies the invariant at
every node. -/
theorem C10_children_invariant_witness :
    (buildMerkleTree [[1]] 0).map (fun tr => goodNode tr.root) = some true := by
  rw [buildMerkleTree_single]
  exact congrArg some (C10_children_invariant [[1]] 0 _ (buildMerkleTree_single [1] 0))
